import Mathlib

/-!
Verification of the SMILES parser and graph-lowering stage.

The development shallowly embeds the data model of `src/lib.rs`
(CST types: `Chain`, `BranchedAtom`, `Branch`, `Atom`, `Bond`, `RingBond`,
`Chirality`, `BracketAtom`) and the lowering of `src/graph.rs`
(`MoleculeGraph::from_chain` with its inner `add_chain_to_graph` walk and
`fill_graph_with_hydrogen` pass, and `find_main_carbon_chain`), together
with the byte-level recognizers `charge`, `hcount`, `isotope`, `symbol`,
`chirality` and `bracket_atom` built from nom-style combinators.

Rust panics (`panic!`, `unwrap`, `expect`, debug-mode integer underflow)
are modelled as `none`; `i8` addition is modelled with two's-complement
wrap-around.  The periodic-table lookup (`ptable::Element::from_symbol`)
and the shortest-path search (`petgraph::algo::astar`) are external
collaborators of the repository; they are modelled by `elementFromSymbol`
(total over the symbols exercised here) and `astarModel` (a BFS that
returns a shortest path and its unit-weight cost).
-/

namespace Smiles

/-- Chemical elements (external `ptable::Element`); only the members the
repository's code paths exercise are materialised. -/
inductive Element where
  | hydrogen | boron | carbon | nitrogen | oxygen | fluorine | sodium | phosphorus
  | sulfur | chlorine | arsenic | selenium | bromine | iodine
deriving DecidableEq

/-- `ptable::Element::from_symbol`, modelled external collaborator:
total over short strings, `none` for symbols outside the modelled subset. -/
def elementFromSymbol (s : List Char) : Option Element :=
  if s = ("H").toList then some .hydrogen
  else if s = ("B").toList then some .boron
  else if s = ("C").toList then some .carbon
  else if s = ("N").toList then some .nitrogen
  else if s = ("O").toList then some .oxygen
  else if s = ("F").toList then some .fluorine
  else if s = ("Na").toList then some .sodium
  else if s = ("P").toList then some .phosphorus
  else if s = ("S").toList then some .sulfur
  else if s = ("Cl").toList then some .chlorine
  else if s = ("As").toList then some .arsenic
  else if s = ("Se").toList then some .selenium
  else if s = ("Br").toList then some .bromine
  else if s = ("I").toList then some .iodine
  else none

/-- `AliphaticOrganicAtom` of `src/lib.rs`. -/
structure AliphaticOrganicAtom where
  element : Element
deriving DecidableEq

/-- `Bond` of `src/lib.rs`. -/
inductive Bond where
  | single | double | triple | quadruple | aromatic | up | down
deriving DecidableEq

/-- `Dot` of `src/lib.rs`. -/
structure Dot where
deriving DecidableEq

/-- `BondOrDot` of `src/lib.rs`. -/
inductive BondOrDot where
  | bond (b : Bond)
  | dot (d : Dot)
deriving DecidableEq

/-- `RingBond` of `src/lib.rs` (`ring_number` is a `u8`; all values the
grammar produces lie in 0..99, so `Nat` is faithful). -/
structure RingBond where
  bond : Option Bond
  ring_number : Nat
deriving DecidableEq

/-- `Symbol` of `src/smiles-parser/src/lib.rs`. -/
inductive Symbol where
  | elementSymbol (e : Element)
  | aromaticSymbol (e : Element)
  | unknown
deriving DecidableEq

/-- `Chirality` of `src/lib.rs` (numeric parameters are `u8`, embedded as `Nat`). -/
inductive Chirality where
  | anticlockwise
  | clockwise
  | tetrahedral (n : Nat)
  | allenal (n : Nat)
  | squarePlanar (n : Nat)
  | trigonalBipyramidal (n : Nat)
  | octahedral (n : Nat)
deriving DecidableEq

/-- `BracketAtom` of `src/smiles-parser/src/lib.rs`: `isotope : Option<u16>`
as `Option Nat`, `hcount : u8` as `Nat`, `charge : i8` as `Int`. -/
structure BracketAtom where
  isotope : Option Nat
  symbol : Symbol
  chiral : Option Chirality
  hcount : Nat
  charge : Int
deriving DecidableEq

/-- `Atom` of the CST (`src/lib.rs`). -/
inductive Atom where
  | bracket (a : BracketAtom)
  | aliphaticOrganic (a : AliphaticOrganicAtom)
  | unknown
deriving DecidableEq

mutual
/-- `Chain` of `src/lib.rs`: head `BranchedAtom`, optional `BondOrDot`
written after the head, optional tail `Chain`. -/
inductive Chain : Type where
  | mk (branched_atom : BranchedAtom) (bond_or_dot : Option BondOrDot) (chain : Option Chain)
/-- `BranchedAtom` of `src/lib.rs`: an atom with its ring bonds and branches. -/
inductive BranchedAtom : Type where
  | mk (atom : Atom) (ring_bonds : List RingBond) (branches : List Branch)
/-- `Branch` of `src/lib.rs`: optional leading `BondOrDot`, then a `Chain`. -/
inductive Branch : Type where
  | mk (bond_or_dot : Option BondOrDot) (chain : Chain)
end

/-- Node label of the molecule graph (`Atom` of `src/graph.rs`). -/
inductive GAtom where
  | aliphaticOrganic (a : AliphaticOrganicAtom)
  | element (e : Element)
deriving DecidableEq

/-- One edge of the molecule graph, recorded with the argument order of the
`add_edge` call that created it. -/
structure GEdge where
  src : Nat
  dst : Nat
  bond : Bond
deriving DecidableEq

/-- The undirected labeled multigraph backing `MoleculeGraph`: nodes in
insertion order (a node's handle is its position), edges in insertion order. -/
structure MGraph where
  nodes : List GAtom
  edges : List GEdge
deriving DecidableEq

/-- `impl Into<Atom> for crate::Atom` in `src/graph.rs`: only
`AliphaticOrganic` converts, everything else panics.  In
`addChainToGraph` below this conversion is realised by the clause split on
the head atom (the catch-all clause is the panic). -/
def atomInto : Atom → Option GAtom
  | .aliphaticOrganic a => some (.aliphaticOrganic a)
  | _ => none

/-- The `map(Bond => Some, _ => None).flatten()` projection applied both to
a branch's leading `bond_or_dot` and to a chain record's `bond_or_dot`. -/
def branchBondOf : Option BondOrDot → Option Bond
  | some (.bond b) => some b
  | _ => none

/-- The bond chosen for the edge to `previous_node`: `branch_bond` when
given, else the current chain record's `bond_or_dot` projected to a bond,
else `Single` (`unwrap_or(&Bond::Single)`). -/
def linearBond (branchBond : Option Bond) (bod : Option BondOrDot) : Bond :=
  match branchBond with
  | some b => b
  | none => (branchBondOf bod).getD .single

/-- The `add_node` plus conditional `add_edge(current, previous, bond)` at
the top of `add_chain_to_graph`: append the node; when a previous node
exists also append one edge from the fresh index to it. -/
def addNodeStep (g : MGraph) (ga : GAtom) (prev : Option Nat) (b : Bond) : MGraph :=
  match prev with
  | none => ⟨g.nodes ++ [ga], g.edges⟩
  | some p => ⟨g.nodes ++ [ga], g.edges ++ [⟨g.nodes.length, p, b⟩]⟩

mutual
/-- `add_chain_to_graph` of `src/graph.rs`: insert a node for the head atom
(panicking — the catch-all clause — unless it is `AliphaticOrganic`); if a
previous node exists add one edge labeled `linearBond branch_bond
bond_or_dot`; then recurse on the tail and afterwards on each branch. -/
def addChainToGraph : Chain → Option Nat → Option Bond → MGraph → Option MGraph
  | .mk (.mk (.aliphaticOrganic ao) _rbs brs) bod none, prev, branchBond, g =>
    addBranches brs g.nodes.length
      (addNodeStep g (.aliphaticOrganic ao) prev (linearBond branchBond bod))
  | .mk (.mk (.aliphaticOrganic ao) _rbs brs) bod (some t), prev, branchBond, g =>
    match addChainToGraph t (some g.nodes.length) none
        (addNodeStep g (.aliphaticOrganic ao) prev (linearBond branchBond bod)) with
    | none => none
    | some g3 => addBranches brs g.nodes.length g3
  | .mk (.mk _ _ _) _ _, _, _, _ => none

/-- The `for branch in branched_atom.branches` loop of `add_chain_to_graph`:
lower each branch chain in source order, passing the branch's leading bond
(projected through `branchBondOf`) as `branch_bond`. -/
def addBranches : List Branch → Nat → MGraph → Option MGraph
  | [], _, g => some g
  | .mk bbod bc :: rest, current, g =>
    match addChainToGraph bc (some current) (branchBondOf bbod) g with
    | none => none
    | some g2 => addBranches rest current g2
end

/-- The node-insertion walk of `MoleculeGraph::from_chain` (everything
before `fill_graph_with_hydrogen`). -/
def fromChainRaw (c : Chain) : Option MGraph :=
  addChainToGraph c none none ⟨[], []⟩

/-- The `desired_bonds_num` computation of `fill_graph_with_hydrogen`:
carbon 4, phosphorus 5, oxygen 2, everything else panics. -/
def desiredBonds : GAtom → Option Nat
  | .aliphaticOrganic a =>
    match a.element with
    | .carbon => some 4
    | .phosphorus => some 5
    | .oxygen => some 2
    | _ => none
  | _ => none

/-- The bond-order computation of `fill_graph_with_hydrogen`:
`Single` counts 1, `Double` counts 2, everything else panics. -/
def bondOrder : Bond → Option Nat
  | .single => some 1
  | .double => some 2
  | _ => none

/-- Does edge `e` touch node `i` (the undirected incidence used by
`graph.edges(atom_index)`)? -/
def incidentB (i : Nat) (e : GEdge) : Bool :=
  e.src == i || e.dst == i

/-- `current_bonds_num` of `fill_graph_with_hydrogen`: sum of the orders of
all edges incident to `i`, panicking on an unhandled bond type. -/
def currentBonds (g : MGraph) (i : Nat) : Option Nat :=
  ((g.edges.filter (incidentB i)).mapM (fun e => bondOrder e.bond)).map (fun l => l.sum)

/-- The `for _ in 0..needed_hydrogen` loop: append a hydrogen node and a
`Single` edge from atom `i` to it, `n` times. -/
def addHydrogens : MGraph → Nat → Nat → MGraph
  | g, _, 0 => g
  | g, i, n + 1 =>
    addHydrogens ⟨g.nodes ++ [GAtom.element .hydrogen],
                  g.edges ++ [⟨i, g.nodes.length, .single⟩]⟩ i n

/-- One iteration of the `fill_graph_with_hydrogen` loop for node `i`:
look the atom up, compute desired and current bond counts (each may panic),
panic on debug-mode underflow, then add the missing hydrogens. -/
def fillStep (g : MGraph) (i : Nat) : Option MGraph :=
  match g.nodes[i]? with
  | none => none
  | some a =>
    match desiredBonds a with
    | none => none
    | some desired =>
      match currentBonds g i with
      | none => none
      | some cur =>
        if cur ≤ desired then some (addHydrogens g i (desired - cur)) else none

/-- Folding `fillStep` over a fixed list of node indices. -/
def fillGo : List Nat → MGraph → Option MGraph
  | [], g => some g
  | i :: rest, g =>
    match fillStep g i with
    | none => none
    | some g2 => fillGo rest g2

/-- `fill_graph_with_hydrogen` of `src/graph.rs`: the iterated indices are
captured from the graph before the loop starts (`graph.node_indices()`),
so hydrogen nodes appended during the loop are never visited. -/
def fillGraphWithHydrogen (g : MGraph) : Option MGraph :=
  fillGo (List.range g.nodes.length) g

/-- `MoleculeGraph::from_chain`: the node-insertion walk followed by the
implicit-hydrogen pass. -/
def fromChain (c : Chain) : Option MGraph :=
  match fromChainRaw c with
  | none => none
  | some g => fillGraphWithHydrogen g

/-- Is node `i` of `g` an aliphatic carbon (the `NodeFiltered` predicate of
`find_main_carbon_chain`)? -/
def isCarbonNode (g : MGraph) (i : Nat) : Bool :=
  match g.nodes.get? i with
  | some (.aliphaticOrganic a) => a.element == Element.carbon
  | _ => false

/-- Neighbours of `u` inside the node set `allowed` (the carbon-filtered
subgraph). -/
def neighborsIn (g : MGraph) (allowed : List Nat) (u : Nat) : List Nat :=
  g.edges.foldr
    (fun e acc =>
      if e.src == u && allowed.contains e.dst then e.dst :: acc
      else if e.dst == u && allowed.contains e.src then e.src :: acc
      else acc)
    []

/-- Breadth-first search over the filtered subgraph: the queue holds
reversed paths; `visited` prevents re-enqueueing, so `g.nodes.length + 1`
fuel bounds the number of dequeues. -/
def bfsGo (g : MGraph) (allowed : List Nat) (goal : Nat) :
    Nat → List (List Nat) → List Nat → Option (Nat × List Nat)
  | 0, _, _ => none
  | _ + 1, [], _ => none
  | fuel + 1, path :: queue, visited =>
    match path with
    | [] => none
    | u :: _ =>
      if u == goal then some (path.length - 1, path.reverse)
      else
        let nbrs := (neighborsIn g allowed u).filter (fun v => !visited.contains v)
        bfsGo g allowed goal fuel (queue ++ nbrs.map (fun v => v :: path)) (visited ++ nbrs)

/-- `petgraph::algo::astar` with unit weights and zero estimate, modelled
external collaborator: a shortest path (with its cost) between two nodes of
the carbon-filtered subgraph, `none` when the goal is unreachable. -/
def astarModel (g : MGraph) (allowed : List Nat) (start goal : Nat) :
    Option (Nat × List Nat) :=
  bfsGo g allowed goal (g.nodes.length + 1) [[start]] [start]

/-- `Iterator::max_by_key`: `none` on an empty list, otherwise the last
element attaining the maximal key. -/
def maxByKey {α : Type} (f : α → Nat) (l : List α) : Option α :=
  l.foldl
    (fun acc x =>
      match acc with
      | none => some x
      | some m => if f m ≤ f x then some x else some m)
    none

/-- `find_main_carbon_chain` of `src/graph.rs`: filter to carbon nodes,
form all ordered pairs of distinct carbons (`permutations(2)`), run `astar`
on each pair unwrapping the result, then unwrap the maximum-cost path. -/
def findMainCarbonChain (g : MGraph) : Option (List Nat) :=
  let carbons := (List.range g.nodes.length).filter (fun i => isCarbonNode g i)
  let pairs := carbons.flatMap (fun a => (carbons.filter (fun b => !(b == a))).map (fun b => (a, b)))
  match pairs.mapM (fun p => astarModel g carbons p.1 p.2) with
  | none => none
  | some paths =>
    match maxByKey (fun pr => pr.1) paths with
    | none => none
    | some best => some best.2

mutual
/-- The number of `BranchedAtom` occurrences in a chain: its head (with the
heads of its branch chains) plus the occurrences of its tail. -/
def chainCount : Chain → Nat
  | .mk (.mk _ _ brs) _ tail =>
    1 + brsCount brs + (match tail with | none => 0 | some t => chainCount t)

/-- Sum of the `BranchedAtom` occurrence counts over a branch list. -/
def brsCount : List Branch → Nat
  | [] => 0
  | .mk _ c :: rest => chainCount c + brsCount rest
end

/-- Aliphatic carbon node label. -/
def aC : GAtom := .aliphaticOrganic ⟨.carbon⟩

/-- Aliphatic nitrogen node label. -/
def aN : GAtom := .aliphaticOrganic ⟨.nitrogen⟩

/-- Aliphatic oxygen node label. -/
def aO : GAtom := .aliphaticOrganic ⟨.oxygen⟩

/-- Aliphatic phosphorus node label. -/
def aP : GAtom := .aliphaticOrganic ⟨.phosphorus⟩

/-- Hydrogen node label, as appended by `fill_graph_with_hydrogen`. -/
def hyG : GAtom := .element .hydrogen

/-- A plain branched atom: no ring bonds, no branches. -/
def plainBA (a : Atom) : BranchedAtom := .mk a [] []

/-- The aliphatic-organic carbon CST atom. -/
def cAtom : Atom := .aliphaticOrganic ⟨.carbon⟩

/-- CST of `C`. -/
def singleCChain : Chain := .mk (plainBA cAtom) none none

/-- CST of `CC` (as built by the repository's `chain_ethane` test). -/
def ccChain : Chain :=
  .mk (plainBA cAtom) none (some (.mk (plainBA cAtom) none none))

/-- CST of `C=C` (as built by the repository's `chain_ethene` test: the
`Double` is stored in the first chain record). -/
def etheneChain : Chain :=
  .mk (plainBA cAtom) (some (.bond .double)) (some (.mk (plainBA cAtom) none none))

/-- CST of `C.C`: a `Dot` stored in the first chain record. -/
def cdotcChain : Chain :=
  .mk (plainBA cAtom) (some (.dot ⟨⟩)) (some (.mk (plainBA cAtom) none none))

/-- CST of `C1CC1`: ring number 1 on the first and third atoms. -/
def c1cc1Chain : Chain :=
  .mk (.mk cAtom [⟨none, 1⟩] []) none
    (some (.mk (plainBA cAtom) none
      (some (.mk (.mk cAtom [⟨none, 1⟩] []) none none))))

/-- CST of `C(O)(P)N`: an `X(Y)(Z)W` shape with four distinct atoms
X = C, Y = O, Z = P, W = N. -/
def copnChain : Chain :=
  .mk (.mk cAtom []
        [ .mk none (.mk (plainBA (.aliphaticOrganic ⟨.oxygen⟩)) none none)
        , .mk none (.mk (plainBA (.aliphaticOrganic ⟨.phosphorus⟩)) none none) ])
    none
    (some (.mk (plainBA (.aliphaticOrganic ⟨.nitrogen⟩)) none none))

/-- The graph `from_chain` produces for `CC`: two carbons joined by a
`Single` edge, then three hydrogens on each. -/
def ccGraph : MGraph :=
  ⟨[aC, aC, hyG, hyG, hyG, hyG, hyG, hyG],
   [⟨1, 0, .single⟩, ⟨0, 2, .single⟩, ⟨0, 3, .single⟩, ⟨0, 4, .single⟩,
    ⟨1, 5, .single⟩, ⟨1, 6, .single⟩, ⟨1, 7, .single⟩]⟩

/-- The graph `from_chain` produces for `C`: one carbon and four hydrogens. -/
def singleCGraph : MGraph :=
  ⟨[aC, hyG, hyG, hyG, hyG],
   [⟨0, 1, .single⟩, ⟨0, 2, .single⟩, ⟨0, 3, .single⟩, ⟨0, 4, .single⟩]⟩

/-- The graph `from_chain` produces for `C1CC1`: three chain-linked carbons
and eight hydrogens — and no ring-closure edge. -/
def c1cc1Graph : MGraph :=
  ⟨[aC, aC, aC, hyG, hyG, hyG, hyG, hyG, hyG, hyG, hyG],
   [⟨1, 0, .single⟩, ⟨2, 1, .single⟩,
    ⟨0, 3, .single⟩, ⟨0, 4, .single⟩, ⟨0, 5, .single⟩,
    ⟨1, 6, .single⟩, ⟨1, 7, .single⟩,
    ⟨2, 8, .single⟩, ⟨2, 9, .single⟩, ⟨2, 10, .single⟩]⟩

/-- All edges of `g` joining nodes `i` and `j`, in either stored direction. -/
def edgesBetween (g : MGraph) (i j : Nat) : List GEdge :=
  g.edges.filter (fun e => (e.src == i && e.dst == j) || (e.src == j && e.dst == i))

/-- A nom-style recognizer: consume a prefix of the input, returning the
remaining input and the produced value, or fail (`nom::IResult`). -/
abbrev Recog (α : Type) : Type := List Char → Option (List Char × α)

/-- `nom::bytes::complete::tag`: match a literal byte sequence. -/
def tagP (t : List Char) : Recog (List Char) := fun input =>
  if t.isPrefixOf input then some (input.drop t.length, t) else none

/-- `nom::branch::alt`: try the alternatives in order, first success wins. -/
def altL {α : Type} : List (Recog α) → Recog α
  | [] => fun _ => none
  | p :: rest => fun input =>
    match p input with
    | some r => some r
    | none => altL rest input

/-- `nom::combinator::map`. -/
def mapP {α β : Type} (p : Recog α) (f : α → β) : Recog β := fun input =>
  (p input).map (fun r => (r.1, f r.2))

/-- `nom::combinator::map_res`: the mapped function may fail, failing the
recognizer. -/
def mapResP {α β : Type} (p : Recog α) (f : α → Option β) : Recog β := fun input =>
  match p input with
  | none => none
  | some (r, v) =>
    match f v with
    | none => none
    | some w => some (r, w)

/-- `nom::combinator::opt`: always succeeds, consuming nothing on failure. -/
def optP {α : Type} (p : Recog α) : Recog (Option α) := fun input =>
  match p input with
  | none => some (input, none)
  | some (r, v) => some (r, some v)

/-- `nom::sequence::tuple` for two recognizers. -/
def pairP {α β : Type} (p : Recog α) (q : Recog β) : Recog (α × β) := fun input =>
  match p input with
  | none => none
  | some (r, a) =>
    match q r with
    | none => none
    | some (r2, b) => some (r2, (a, b))

/-- `nom::character::complete::char`: match one given character. -/
def charP (c : Char) : Recog Char := fun input =>
  match input with
  | [] => none
  | x :: rest => if x = c then some (rest, x) else none

/-- `nom::bytes::complete::take_while_m_n lo hi f`: greedily take up to `hi`
characters satisfying `f`; fail when fewer than `lo` are taken. -/
def takeWhileMN (lo hi : Nat) (f : Char → Bool) : Recog (List Char) := fun input =>
  let taken := (input.takeWhile f).take hi
  if taken.length < lo then none else some (input.drop taken.length, taken)

/-- The loop body of `nom::multi::many0`, with fuel: stop successfully when
the inner recognizer fails, fail (as nom does, to avoid an infinite loop)
if it ever succeeds without consuming.  Fuel `input.length` suffices for
any consuming recognizer. -/
def many0Go {α : Type} (p : Recog α) : Nat → List Char → Option (List Char × List α)
  | 0, input =>
    match p input with
    | none => some (input, [])
    | some _ => none
  | fuel + 1, input =>
    match p input with
    | none => some (input, [])
    | some (rest, v) =>
      if rest.length < input.length then
        match many0Go p fuel rest with
        | none => none
        | some (r, vs) => some (r, v :: vs)
      else none

/-- `nom::multi::many0`. -/
def many0P {α : Type} (p : Recog α) : Recog (List α) := fun input =>
  many0Go p input.length input

/-- `nom::character::is_digit` (ASCII decimal digit). -/
def isDigitC (c : Char) : Bool := c.isDigit

/-- Decimal value of a digit string. -/
def digitsToNat (l : List Char) : Nat :=
  l.foldl (fun acc c => acc * 10 + (c.toNat - ('0').toNat)) 0

/-- The digit-count recognizer used inside `charge`:
`take_while_m_n(1, 2, is_digit)` then UTF-8 decode then `parse::<u8>`;
both conversions always succeed on one or two ASCII digits (≤ 99 < 256). -/
def digits12 : Recog Nat :=
  mapResP (takeWhileMN 1 2 isDigitC) (fun s => some (digitsToNat s))

/-- One signed run inside `charge`: `+` or `-` then an optional 1–2 digit
magnitude, defaulting to 1; signed by the first matched byte. -/
def signRun : Recog Int :=
  mapP (pairP (altL [tagP (("+").toList), tagP (("-").toList)]) (optP digits12))
    (fun r =>
      let cnt : Int := (r.2.getD 1 : Nat)
      if r.1.head? = some '+' then cnt else -cnt)

/-- Two's-complement `i8` wrap-around (release-mode Rust addition). -/
def i8wrap (x : Int) : Int := (x + 128) % 256 - 128

/-- `charge` of `src/smiles-parser/src/lib.rs`: `many0` signed runs, summed
with `i8` arithmetic. -/
def charge : Recog Int :=
  mapP (many0P signRun) (fun v => v.foldl (fun acc x => i8wrap (acc + x)) 0)

/-- The single-digit recognizer used inside `hcount`. -/
def digit1 : Recog Nat :=
  mapResP (takeWhileMN 1 1 isDigitC) (fun s => some (digitsToNat s))

/-- `hcount` of `src/smiles-parser/src/lib.rs`: optional `H` with an
optional single-digit count; `H` alone counts 1, no `H` counts 0. -/
def hcount : Recog Nat :=
  mapP (optP (mapP (pairP (tagP (("H").toList)) (optP digit1)) (fun r => r.2.getD 1)))
    (fun r => r.getD 0)

/-- `isotope_opt` of `src/smiles-parser/src/lib.rs`: an optional run of 1–3
digits (`parse::<u16>` always succeeds on ≤ 999). -/
def isotopeOpt : Recog (Option Nat) :=
  optP (mapResP (takeWhileMN 1 3 isDigitC) (fun s => some (digitsToNat s)))

/-- The two-letter element tags of `raw_symbol`, in source order. -/
def twoLetterTags : List (List Char) :=
  (["Ac", "Ag", "Al", "Am", "Ar", "As", "At", "Au", "Ba", "Be",
    "Bh", "Bi", "Bk", "Br", "Ca", "Cd", "Ce", "Cf", "Cl", "Cm",
    "Cn", "Co", "Cr", "Cs", "Cu", "Db", "Ds", "Dy", "Er", "Es",
    "Eu", "Fe", "Fl", "Fm", "Fr", "Ga", "Gd", "Ge", "He", "Hf",
    "Hg", "Ho", "Hs", "In", "Ir", "Kr", "La", "Li", "Lr", "Lu",
    "Lv", "Mc", "Md", "Mg", "Mn", "Mo", "Mt", "Na", "Nb", "Nd",
    "Ne", "Nh", "Ni", "No", "Np", "Og", "Os", "Pa", "Pb", "Pd",
    "Pm", "Po", "Pr", "Pt", "Pu", "Ra", "Rb", "Re", "Rf", "Rg",
    "Rh", "Rn", "Ru", "Sb", "Sc", "Se", "Sg", "Si", "Sm", "Sn",
    "Sr", "Ta", "Tb", "Tc", "Te", "Th", "Ti", "Tl", "Tm", "Ts",
    "Xe", "Yb", "Zn", "Zr"]).map String.toList

/-- The one-letter element tags of `raw_symbol`, in source order. -/
def oneLetterTags : List (List Char) :=
  (["B", "C", "F", "H", "I", "K", "N", "O", "P", "S", "U", "V", "W", "Y"]).map String.toList

/-- The aromatic tags of `raw_symbol`, in source order. -/
def aromaticTags : List (List Char) :=
  (["se", "as", "b", "c", "n", "o", "p", "s"]).map String.toList

/-- `raw_symbol` of `src/smiles-parser/src/lib.rs`: `*`, then the
two-letter element symbols, then the one-letter ones, then the aromatic
symbols, as one ordered alternation. -/
def rawSymbol : Recog (List Char) :=
  altL (tagP (("*").toList) :: (twoLetterTags ++ oneLetterTags ++ aromaticTags).map tagP)

/-- The value mapping inside `symbol`: `*` is `Unknown`, the eight aromatic
strings map to their elements, and everything else goes through
`Element::from_symbol` (UTF-8 decoding never fails on these ASCII tags). -/
def symbolOfRaw (sym : List Char) : Option Symbol :=
  if sym = ("*").toList then some Symbol.unknown
  else if sym = ("se").toList then some (.aromaticSymbol .selenium)
  else if sym = ("as").toList then some (.aromaticSymbol .arsenic)
  else if sym = ("b").toList then some (.aromaticSymbol .boron)
  else if sym = ("c").toList then some (.aromaticSymbol .carbon)
  else if sym = ("n").toList then some (.aromaticSymbol .nitrogen)
  else if sym = ("o").toList then some (.aromaticSymbol .oxygen)
  else if sym = ("p").toList then some (.aromaticSymbol .phosphorus)
  else if sym = ("s").toList then some (.aromaticSymbol .sulfur)
  else (elementFromSymbol sym).map Symbol.elementSymbol

/-- `symbol` of `src/smiles-parser/src/lib.rs`. -/
def symbol : Recog Symbol := mapResP rawSymbol symbolOfRaw

/-- The tags of `raw_chirality`, in exact source order: `@TH`/`@AL`/`@SP`
forms, `@TB10..20` before `@TB1..9`, `@OH10..20` before `@OH1..9`,
then `@OH21..30`, then `@@`, then `@`. -/
def chiralityTags : List (List Char) :=
  (["@TH1", "@TH2", "@AL1", "@AL2", "@SP1", "@SP2", "@SP3",
    "@TB10", "@TB11", "@TB12", "@TB13", "@TB14", "@TB15", "@TB16", "@TB17",
    "@TB18", "@TB19", "@TB20",
    "@TB1", "@TB2", "@TB3", "@TB4", "@TB5", "@TB6", "@TB7", "@TB8", "@TB9",
    "@OH10", "@OH11", "@OH12", "@OH13", "@OH14", "@OH15", "@OH16", "@OH17",
    "@OH18", "@OH19", "@OH20",
    "@OH1", "@OH2", "@OH3", "@OH4", "@OH5", "@OH6", "@OH7", "@OH8", "@OH9",
    "@OH21", "@OH22", "@OH23", "@OH24", "@OH25", "@OH26", "@OH27", "@OH28",
    "@OH29", "@OH30",
    "@@", "@"]).map String.toList

/-- `raw_chirality` of `src/smiles-parser/src/lib.rs`. -/
def rawChirality : Recog (List Char) := altL (chiralityTags.map tagP)

/-- The value mapping inside `chirality`: the source matches each literal
tag string and parses its numeric suffix; classifying by the first three
characters agrees with that match on every string `raw_chirality` returns. -/
def chiralityOfTag (s : List Char) : Option Chirality :=
  if s = ("@").toList then some .anticlockwise
  else if s = ("@@").toList then some .clockwise
  else if s.take 3 = ("@TH").toList then some (.tetrahedral (digitsToNat (s.drop 3)))
  else if s.take 3 = ("@AL").toList then some (.allenal (digitsToNat (s.drop 3)))
  else if s.take 3 = ("@SP").toList then some (.squarePlanar (digitsToNat (s.drop 3)))
  else if s.take 3 = ("@TB").toList then some (.trigonalBipyramidal (digitsToNat (s.drop 3)))
  else if s.take 3 = ("@OH").toList then some (.octahedral (digitsToNat (s.drop 3)))
  else none

/-- `chirality` of `src/smiles-parser/src/lib.rs`. -/
def chirality : Recog Chirality := mapResP rawChirality chiralityOfTag

/-- `bracket_atom` of `src/smiles-parser/src/lib.rs`:
`delimited(char '[', tuple((isotope_opt, symbol, opt(chirality), hcount, charge)), char ']')`. -/
def bracketAtom : Recog BracketAtom := fun input =>
  match charP '[' input with
  | none => none
  | some (r1, _) =>
    match isotopeOpt r1 with
    | none => none
    | some (r2, iso) =>
      match symbol r2 with
      | none => none
      | some (r3, sym) =>
        match optP chirality r3 with
        | none => none
        | some (r4, chir) =>
          match hcount r4 with
          | none => none
          | some (r5, hc) =>
            match charge r5 with
            | none => none
            | some (r6, ch) =>
              match charP ']' r6 with
              | none => none
              | some (r7, _) => some (r7, ⟨iso, sym, chir, hc, ch⟩)

/-- Well-formedness of a molecule graph: every edge endpoint is a live node
index.  `add_chain_to_graph` only creates such edges. -/
def WfG (g : MGraph) : Prop :=
  ∀ e ∈ g.edges, e.src < g.nodes.length ∧ e.dst < g.nodes.length

/-- The invariant the hydrogen pass maintains over the original node count
`n0` and original edge list `E0`: all nodes from index `n0` on are hydrogen,
and the edges are `E0` plus one `Single` edge per new node, sourced at a
pre-existing atom and targeting the new nodes in order. -/
def hyExt (n0 : Nat) (E0 : List GEdge) (g : MGraph) : Prop :=
  n0 ≤ g.nodes.length ∧
  (∀ j, n0 ≤ j → j < g.nodes.length → g.nodes[j]? = some hyG) ∧
  ∃ newE, g.edges = E0 ++ newE ∧
    newE.map GEdge.dst = List.range' n0 (g.nodes.length - n0) ∧
    ∀ e ∈ newE, e.src < n0 ∧ e.bond = Bond.single

/-- A recognizer that, on success, returns a suffix of its input (it only
consumes a prefix, leaving the rest untouched). -/
def SuffixPres {α : Type} (p : Recog α) : Prop :=
  ∀ input r v, p input = some (r, v) → r <:+ input

/-- A recognizer that always consumes at least one character on success. -/
def Consuming {α : Type} (p : Recog α) : Prop :=
  ∀ input r v, p input = some (r, v) → r.length < input.length

/-- C1: the lowering of `C1CC1` — ring number 1 appears on exactly the first
and third atoms — produces a graph with NO edge between nodes 0 and 2:
`add_chain_to_graph` never reads `ring_bonds`, so the ring-closure edge the
claim (and §4.3 step 4 of the spec) requires is not installed.  The code
contradicts the spec's stated intent here; the claim stands, the code is
the defect. -/
theorem c1_ring_closure_edge_not_installed :
    fromChain c1cc1Chain = some c1cc1Graph ∧ edgesBetween c1cc1Graph 0 2 = [] := by
  constructor
  · rfl
  · rfl

/-- C2: lowering the CST of `C=C` (the `Double` annotation is stored in the
first chain record, i.e. the `BondOrDot` preceding the second atom) yields
a `Single`-labeled edge between the two carbons and no `Double` edge at
all: `add_chain_to_graph` reads the bond from the CURRENT atom's chain
record — the connector that follows it — instead of the preceding one, so
the claim's `Double` label never appears. -/
theorem c2_ethene_edge_is_single_not_double :
    fromChain etheneChain = some ccGraph ∧
    edgesBetween ccGraph 0 1 = [⟨1, 0, .single⟩] ∧
    ccGraph.edges.filter (fun e => e.bond == Bond.double) = [] := by
  refine ⟨?_, ?_, ?_⟩ <;> rfl

/-- C3: lowering the CST of `C.C` — whose connecting `bond_or_dot` is `Dot`
— DOES add an edge (labeled `Single`) between the two atoms, so the graph
of `A.B` is connected rather than split: the `Dot` is stored in the first
chain record but the edge bond is read from the second record (`None`,
defaulted to `Single`), and a `Dot` found there would be defaulted to
`Single` too, never suppressing the edge. -/
theorem c3_dot_does_not_split :
    fromChain cdotcChain = some ccGraph ∧
    edgesBetween ccGraph 0 1 = [⟨1, 0, .single⟩] := by
  constructor
  · rfl
  · rfl

/-- C4 counterexample: for the `X(Y)(Z)W` chain `C(O)(P)N`, the insertion
order of the walk is X, W, Y, Z (node labels `[C, N, O, P]`): the branch
node Y (oxygen, index 2) does precede Z (phosphorus, index 3), but Z does
NOT precede the continuation atom W (nitrogen, index 1), refuting the
claimed Y-before-Z-before-W order. -/
theorem c4_branch_order_counterexample :
    (fromChainRaw copnChain).map MGraph.nodes = some [aC, aN, aO, aP] ∧
    ¬ (([aC, aN, aO, aP].findIdx (fun x => x == aO) <
          [aC, aN, aO, aP].findIdx (fun x => x == aP)) ∧
       ([aC, aN, aO, aP].findIdx (fun x => x == aP) <
          [aC, aN, aO, aP].findIdx (fun x => x == aN))) := by
  constructor
  · rfl
  · decide

/-- C4 amended: `from_chain` inserts the head first, then the nodes of the
continuation (tail) chain, then the branches in source order — for
`X(Y)(Z)W` (here `C(O)(P)N`) the node for Y is inserted before the node
for Z, but the node for W is inserted before both. -/
theorem c4_branch_order_amended :
    (fromChainRaw copnChain).map MGraph.nodes = some [aC, aN, aO, aP] ∧
    [aC, aN, aO, aP].findIdx (fun x => x == aO) <
      [aC, aN, aO, aP].findIdx (fun x => x == aP) ∧
    [aC, aN, aO, aP].findIdx (fun x => x == aN) <
      [aC, aN, aO, aP].findIdx (fun x => x == aO) := by
  refine ⟨?_, ?_, ?_⟩
  · rfl
  · decide
  · decide

/-- C5: `find_main_carbon_chain` does fail on a graph with no carbon node
(the empty molecule graph) and on a graph with exactly one carbon (the
lowering of `C`): with fewer than two carbons `permutations(2)` is empty,
so `max_by_key` returns `None` and the trailing `.unwrap()` panics —
instead of returning the (empty) sequence the claim promises. -/
theorem c5_find_main_carbon_chain_panics :
    findMainCarbonChain ⟨[], []⟩ = none ∧
    fromChain singleCChain = some singleCGraph ∧
    findMainCarbonChain singleCGraph = none := by
  refine ⟨?_, ?_, ?_⟩ <;> rfl

/-- C6: the chirality recognizer handles `@TB15` and `@@` as the claim says,
but NOT `@OH30`: because `@OH21..@OH30` are listed after `@OH1..@OH9` in
`raw_chirality`, the input `@OH30` matches the four-byte tag `@OH3` and
returns `Octahedral(3)` leaving `0`, not `Octahedral(30)` — refuting the
longest-match claim exactly where the spec demands it. -/
theorem c6_chirality_oh30_not_longest_match :
    chirality (("@TB15").toList) = some ([], .trigonalBipyramidal 15) ∧
    chirality (("@@").toList) = some ([], .clockwise) ∧
    chirality (("@OH30").toList) = some ((("0").toList), .octahedral 3) := by
  refine ⟨?_, ?_, ?_⟩ <;> rfl

/-- C7: the charge recognizer returns the signed sum of its sign runs —
`--` gives −2, `+3` gives +3, `+--` gives −1, `+2-1` gives +1, each
consuming the whole run — and `bracket_atom` on `[16C--]` yields isotope
16, carbon element symbol, hcount 0, charge −2. -/
theorem c7_charge_signed_sum :
    charge (("--").toList) = some ([], -2) ∧
    charge (("+3").toList) = some ([], 3) ∧
    charge (("+--").toList) = some ([], -1) ∧
    charge (("+2-1").toList) = some ([], 1) ∧
    bracketAtom (("[16C--]").toList) =
      some ([], ⟨some 16, .elementSymbol .carbon, none, 0, -2⟩) := by
  refine ⟨?_, ?_, ?_, ?_, ?_⟩ <;> rfl

theorem addNodeStep_nodes (g : MGraph) (ga : GAtom) (prev : Option Nat) (b : Bond) :
    (addNodeStep g ga prev b).nodes = g.nodes ++ [ga] := by
  cases prev <;> rfl

theorem addNodeStep_wf (g : MGraph) (ga : GAtom) (prev : Option Nat) (b : Bond)
    (hp : ∀ p, prev = some p → p < g.nodes.length) (hw : WfG g) :
    WfG (addNodeStep g ga prev b) := by
  cases prev with
  | none =>
    intro e he
    have := hw e he
    simp only [addNodeStep, List.length_append, List.length_cons, List.length_nil]
    omega
  | some p =>
    intro e he
    simp only [addNodeStep, List.mem_append, List.mem_cons, List.not_mem_nil, or_false] at he
    simp only [addNodeStep, List.length_append, List.length_cons, List.length_nil]
    rcases he with he | he
    · have := hw e he; omega
    · subst he
      have := hp p rfl
      simp only []
      omega

mutual
/-- Joint walk specification: on success `add_chain_to_graph` adds exactly
`chainCount c` nodes and keeps the graph well-formed. -/
theorem addChain_spec : ∀ (c : Chain) (prev : Option Nat) (bb : Option Bond) (g g2 : MGraph),
    addChainToGraph c prev bb g = some g2 →
    (∀ p, prev = some p → p < g.nodes.length) → WfG g →
    g2.nodes.length = g.nodes.length + chainCount c ∧ WfG g2
  | .mk (.mk (.aliphaticOrganic ao) rbs brs) bod none, prev, bb, g, g2, h, hp, hw => by
    rw [addChainToGraph.eq_1] at h
    have hlen : (addNodeStep g (.aliphaticOrganic ao) prev (linearBond bb bod)).nodes.length
        = g.nodes.length + 1 := by
      rw [addNodeStep_nodes]; simp
    have hwf := addNodeStep_wf g (.aliphaticOrganic ao) prev (linearBond bb bod) hp hw
    have hib := addBranches_spec brs g.nodes.length _ g2 h (by omega) hwf
    refine ⟨?_, hib.2⟩
    simp only [chainCount]
    omega
  | .mk (.mk (.aliphaticOrganic ao) rbs brs) bod (some t), prev, bb, g, g2, h, hp, hw => by
    rw [addChainToGraph.eq_2] at h
    have hlen : (addNodeStep g (.aliphaticOrganic ao) prev (linearBond bb bod)).nodes.length
        = g.nodes.length + 1 := by
      rw [addNodeStep_nodes]; simp
    have hwf := addNodeStep_wf g (.aliphaticOrganic ao) prev (linearBond bb bod) hp hw
    cases hrec : addChainToGraph t (some g.nodes.length) none
        (addNodeStep g (.aliphaticOrganic ao) prev (linearBond bb bod)) with
    | none => rw [hrec] at h; exact absurd h (by simp)
    | some g3 =>
      rw [hrec] at h
      simp only [] at h
      have ht := addChain_spec t (some g.nodes.length) none _ g3 hrec
        (by intro p hp2; cases hp2; omega) hwf
      have hib := addBranches_spec brs g.nodes.length g3 g2 h (by omega) ht.2
      refine ⟨?_, hib.2⟩
      simp only [chainCount]
      omega
  | .mk (.mk (.bracket ba) rbs brs) bod none, prev, bb, g, g2, h, hp, hw => by
    exact absurd h (by simp [addChainToGraph])
  | .mk (.mk (.bracket ba) rbs brs) bod (some t), prev, bb, g, g2, h, hp, hw => by
    exact absurd h (by simp [addChainToGraph])
  | .mk (.mk .unknown rbs brs) bod none, prev, bb, g, g2, h, hp, hw => by
    exact absurd h (by simp [addChainToGraph])
  | .mk (.mk .unknown rbs brs) bod (some t), prev, bb, g, g2, h, hp, hw => by
    exact absurd h (by simp [addChainToGraph])

/-- Joint specification of the branch loop: on success it adds exactly
`brsCount bs` nodes and keeps the graph well-formed. -/
theorem addBranches_spec : ∀ (bs : List Branch) (cur : Nat) (g g2 : MGraph),
    addBranches bs cur g = some g2 → cur < g.nodes.length → WfG g →
    g2.nodes.length = g.nodes.length + brsCount bs ∧ WfG g2
  | [], cur, g, g2, h, hc, hw => by
    rw [addBranches.eq_1] at h
    cases h
    exact ⟨by simp [brsCount], hw⟩
  | .mk bbod bc :: rest, cur, g, g2, h, hc, hw => by
    rw [addBranches.eq_2] at h
    cases hrec : addChainToGraph bc (some cur) (branchBondOf bbod) g with
    | none => rw [hrec] at h; exact absurd h (by simp)
    | some gmid =>
      rw [hrec] at h
      simp only [] at h
      have h1 := addChain_spec bc (some cur) (branchBondOf bbod) g gmid hrec
        (by intro p hp2; cases hp2; omega) hw
      have h2 := addBranches_spec rest cur gmid g2 h (by omega) h1.2
      refine ⟨?_, h2.2⟩
      simp only [brsCount]
      omega
end

/-- C8: whenever the node-insertion walk of `MoleculeGraph::from_chain`
completes (it panics on `Bracket` and `Unknown` atoms, producing no graph),
the number of nodes in the graph it produces — before implicit-hydrogen
filling — equals the number of `BranchedAtom` occurrences in the CST,
counting the heads of the chain, of every tail chain and of every nested
branch chain. -/
theorem c8_walk_preserves_atom_count (c : Chain) (g : MGraph)
    (h : fromChainRaw c = some g) : g.nodes.length = chainCount c := by
  have hs := addChain_spec c none none ⟨[], []⟩ g h
    (by intro p hp; cases hp)
    (by intro e he; exact absurd he (List.not_mem_nil e))
  simpa using hs.1

/-- Witness for C8 at the CST of `CC`: the walk yields two nodes and
`chainCount` is 2. -/
theorem c8_walk_preserves_atom_count_witness :
    (⟨[aC, aC], [⟨1, 0, .single⟩]⟩ : MGraph).nodes.length = chainCount ccChain :=
  c8_walk_preserves_atom_count ccChain ⟨[aC, aC], [⟨1, 0, .single⟩]⟩ rfl

theorem addHydrogens_ext (i : Nat) : ∀ (m : Nat) (g : MGraph) (n0 : Nat) (E0 : List GEdge),
    i < n0 → hyExt n0 E0 g → hyExt n0 E0 (addHydrogens g i m) := by
  intro m
  induction m with
  | zero => intro g n0 E0 _ hx; exact hx
  | succ n ih =>
    intro g n0 E0 hi hx
    show hyExt n0 E0 (addHydrogens
      ⟨g.nodes ++ [hyG], g.edges ++ [⟨i, g.nodes.length, .single⟩]⟩ i n)
    apply ih _ n0 E0 hi
    obtain ⟨hle, hnode, newE, hE, hmap, hprop⟩ := hx
    refine ⟨?_, ?_, newE ++ [⟨i, g.nodes.length, .single⟩], ?_, ?_, ?_⟩
    · simp only [List.length_append, List.length_cons, List.length_nil]
      omega
    · intro j hj1 hj2
      simp only [List.length_append, List.length_cons, List.length_nil] at hj2
      rcases Nat.lt_or_ge j g.nodes.length with hlt | hge
      · rw [List.getElem?_append_left hlt]
        exact hnode j hj1 hlt
      · have hj : j = g.nodes.length := by omega
        subst hj
        exact List.getElem?_concat_length _ _
    · rw [hE, List.append_assoc]
    · simp only [List.map_append, hmap, List.map_cons, List.map_nil,
        List.length_append, List.length_cons, List.length_nil]
      have h1 : g.nodes.length + 1 - n0 = (g.nodes.length - n0) + 1 := by omega
      rw [h1, List.range'_concat]
      congr 2
      omega
    · intro e he
      rcases List.mem_append.mp he with he | he
      · exact hprop e he
      · simp only [List.mem_cons, List.not_mem_nil, or_false] at he
        subst he
        exact ⟨hi, rfl⟩

theorem fillStep_ext (n0 : Nat) (E0 : List GEdge) (g g2 : MGraph) (i : Nat)
    (hi : i < n0) (hx : hyExt n0 E0 g) (h : fillStep g i = some g2) :
    hyExt n0 E0 g2 := by
  unfold fillStep at h
  cases hg : g.nodes[i]? with
  | none => rw [hg] at h; cases h
  | some a =>
    rw [hg] at h
    simp only [] at h
    cases hd : desiredBonds a with
    | none => rw [hd] at h; cases h
    | some d =>
      rw [hd] at h
      simp only [] at h
      cases hc : currentBonds g i with
      | none => rw [hc] at h; cases h
      | some cur =>
        rw [hc] at h
        simp only [] at h
        split at h
        · injection h with h
          subst h
          exact addHydrogens_ext i _ g n0 E0 hi hx
        · cases h

theorem fillGo_ext (n0 : Nat) (E0 : List GEdge) : ∀ (l : List Nat) (g g2 : MGraph),
    (∀ i ∈ l, i < n0) → hyExt n0 E0 g → fillGo l g = some g2 → hyExt n0 E0 g2 := by
  intro l
  induction l with
  | nil =>
    intro g g2 _ hx h
    unfold fillGo at h
    injection h with h
    subst h
    exact hx
  | cons i rest ih =>
    intro g g2 hall hx h
    unfold fillGo at h
    cases hs : fillStep g i with
    | none => rw [hs] at h; cases h
    | some gmid =>
      rw [hs] at h
      exact ih gmid g2 (fun j hj => hall j (by simp [hj]))
        (fillStep_ext n0 E0 g gmid i (hall i (by simp)) hx hs) h

theorem fill_ext (g0 g : MGraph) (h : fillGraphWithHydrogen g0 = some g) :
    hyExt g0.nodes.length g0.edges g := by
  unfold fillGraphWithHydrogen at h
  refine fillGo_ext _ _ _ _ _ (fun i hi => List.mem_range.mp hi) ?_ h
  refine ⟨le_refl _, ?_, [], by simp, by simp, by intro e he; cases he⟩
  intro j h1 h2
  exact absurd h2 (by omega)

theorem filter_incident_singleton : ∀ (l : List GEdge) (a k j n0 : Nat),
    l.map GEdge.dst = List.range' a k → a ≤ j → j < a + k → n0 ≤ a →
    (∀ e ∈ l, e.src < n0 ∧ e.bond = Bond.single) →
    ∃ e, l.filter (incidentB j) = [e] ∧ e.src < n0 ∧ e.bond = Bond.single ∧ e.dst = j := by
  intro l
  induction l with
  | nil =>
    intro a k j n0 hmap ha hj _ _
    simp only [List.map_nil] at hmap
    have hk : k = 0 := by rwa [eq_comm, List.range'_eq_nil] at hmap
    exact absurd hj (by omega)
  | cons e l2 ih =>
    intro a k j n0 hmap ha hj hna hall
    cases k with
    | zero => simp at hmap
    | succ k2 =>
      rw [List.range'_succ] at hmap
      simp only [List.map_cons, List.cons.injEq] at hmap
      obtain ⟨h1, h2⟩ := hmap
      by_cases hje : j = a
      · subst hje
        have hinc : incidentB j e = true := by simp [incidentB, h1]
        rw [List.filter_cons_of_pos hinc]
        have hrest : l2.filter (incidentB j) = [] := by
          rw [List.filter_eq_nil_iff]
          intro f hf
          have hfdst : f.dst ∈ List.range' (j + 1) k2 :=
            h2 ▸ List.mem_map_of_mem GEdge.dst hf
          have hmem := List.mem_range'_1.mp hfdst
          have hfsrc := (hall f (by simp [hf])).1
          simp only [incidentB, Bool.or_eq_true, beq_iff_eq, not_or]
          constructor <;> omega
        rw [hrest]
        exact ⟨e, rfl, (hall e (by simp)).1, (hall e (by simp)).2, h1⟩
      · have hinc : incidentB j e = false := by
          have hsrc := (hall e (by simp)).1
          simp only [incidentB, Bool.or_eq_false_iff, beq_eq_false_iff_ne, ne_eq]
          constructor <;> omega
        rw [List.filter_cons_of_neg (by simp [hinc])]
        exact ih (a + 1) k2 j n0 h2 (by omega) (by omega) (by omega)
          (fun f hf => hall f (by simp [hf]))

/-- C9: whenever `MoleculeGraph::from_chain` returns, every node the
valence-closure pass (`fill_graph_with_hydrogen`) added — every node with
an index at or beyond the walk's node count `chainCount c` — is a hydrogen
with exactly one incident edge; that edge is labeled `Single` and runs from
a pre-existing atom (index below `chainCount c`, the atom whose valence the
hydrogen completes) to the hydrogen.  In particular hydrogen nodes are
never visited by the pass and never receive hydrogens of their own. -/
theorem c9_added_hydrogen_single_edge (c : Chain) (g : MGraph)
    (h : fromChain c = some g) (j : Nat) (hj1 : chainCount c ≤ j)
    (hj2 : j < g.nodes.length) :
    g.nodes[j]? = some hyG ∧
    ∃ e, g.edges.filter (incidentB j) = [e] ∧
      e.src < chainCount c ∧ e.bond = Bond.single ∧ e.dst = j := by
  unfold fromChain at h
  cases hr : fromChainRaw c with
  | none => rw [hr] at h; cases h
  | some g0 =>
    rw [hr] at h
    have hspec := addChain_spec c none none ⟨[], []⟩ g0 hr
      (by intro p hp; cases hp)
      (by intro e he; exact absurd he (List.not_mem_nil e))
    have hn0 : g0.nodes.length = chainCount c := by simpa using hspec.1
    have hwf := hspec.2
    obtain ⟨hle, hnode, newE, hE, hmap, hprop⟩ := fill_ext g0 g h
    constructor
    · exact hnode j (by omega) hj2
    · rw [hE, List.filter_append]
      have hE0 : g0.edges.filter (incidentB j) = [] := by
        rw [List.filter_eq_nil_iff]
        intro e he
        have hb := hwf e he
        simp only [incidentB, Bool.or_eq_true, beq_iff_eq, not_or]
        constructor <;> omega
      rw [hE0, List.nil_append]
      obtain ⟨e, hfe, hs1, hs2, hs3⟩ := filter_incident_singleton newE
        g0.nodes.length (g.nodes.length - g0.nodes.length) j g0.nodes.length
        hmap (by omega) (by omega) (le_refl _) hprop
      exact ⟨e, hfe, by omega, hs2, hs3⟩

/-- Witness for C9 at the CST of `CC` and its graph: node 2 is a hydrogen
whose single incident edge is `Single` from carbon 0. -/
theorem c9_added_hydrogen_single_edge_witness :
    ccGraph.nodes[2]? = some hyG ∧
    ∃ e, ccGraph.edges.filter (incidentB 2) = [e] ∧
      e.src < chainCount ccChain ∧ e.bond = Bond.single ∧ e.dst = 2 :=
  c9_added_hydrogen_single_edge ccChain ccGraph rfl 2 (by decide) (by decide)

theorem suffixPres_tagP (t : List Char) : SuffixPres (tagP t) := by
  intro input r v h
  unfold tagP at h
  split at h
  · injection h with h
    rw [Prod.mk.injEq] at h
    obtain ⟨h1, _⟩ := h
    subst h1
    exact List.drop_suffix _ _
  · cases h

theorem suffixPres_charP (c : Char) : SuffixPres (charP c) := by
  intro input r v h
  unfold charP at h
  cases input with
  | nil => cases h
  | cons x rest =>
    simp only [] at h
    split at h
    · injection h with h
      rw [Prod.mk.injEq] at h
      obtain ⟨h1, _⟩ := h
      subst h1
      exact List.suffix_cons x rest
    · cases h

theorem suffixPres_takeWhileMN (lo hi : Nat) (f : Char → Bool) :
    SuffixPres (takeWhileMN lo hi f) := by
  intro input r v h
  simp only [takeWhileMN] at h
  split at h
  · cases h
  · injection h with h
    rw [Prod.mk.injEq] at h
    obtain ⟨h1, _⟩ := h
    subst h1
    exact List.drop_suffix _ _

theorem suffixPres_mapP {α β : Type} (p : Recog α) (f : α → β) (hp : SuffixPres p) :
    SuffixPres (mapP p f) := by
  intro input r v h
  unfold mapP at h
  cases hq : p input with
  | none => rw [hq] at h; cases h
  | some res =>
    rw [hq] at h
    injection h with h
    rw [Prod.mk.injEq] at h
    obtain ⟨h1, _⟩ := h
    subst h1
    exact hp input res.1 res.2 (by rw [hq])

theorem suffixPres_mapResP {α β : Type} (p : Recog α) (f : α → Option β)
    (hp : SuffixPres p) : SuffixPres (mapResP p f) := by
  intro input r v h
  unfold mapResP at h
  cases hq : p input with
  | none => rw [hq] at h; cases h
  | some res =>
    rcases res with ⟨r0, v0⟩
    rw [hq] at h
    simp only [] at h
    cases hf : f v0 with
    | none => rw [hf] at h; cases h
    | some w =>
      rw [hf] at h
      injection h with h
      rw [Prod.mk.injEq] at h
      obtain ⟨h1, h2⟩ := h
      subst h1
      exact hp input r0 v0 (by rw [hq])

theorem suffixPres_optP {α : Type} (p : Recog α) (hp : SuffixPres p) :
    SuffixPres (optP p) := by
  intro input r v h
  unfold optP at h
  cases hq : p input with
  | none =>
    rw [hq] at h
    injection h with h
    rw [Prod.mk.injEq] at h
    obtain ⟨h1, _⟩ := h
    subst h1
    exact List.suffix_rfl
  | some res =>
    rw [hq] at h
    injection h with h
    rw [Prod.mk.injEq] at h
    obtain ⟨h1, _⟩ := h
    subst h1
    exact hp input res.1 res.2 (by rw [hq])

theorem suffixPres_pairP {α β : Type} (p : Recog α) (q : Recog β)
    (hp : SuffixPres p) (hq : SuffixPres q) : SuffixPres (pairP p q) := by
  intro input r v h
  unfold pairP at h
  cases h1 : p input with
  | none => rw [h1] at h; cases h
  | some res1 =>
    rw [h1] at h
    simp only [] at h
    cases h2 : q res1.1 with
    | none =>
      rcases res1 with ⟨r1, a⟩
      simp only [] at h h2
      rw [h2] at h
      cases h
    | some res2 =>
      rcases res1 with ⟨r1, a⟩
      rcases res2 with ⟨r2, b⟩
      simp only [] at h h2
      rw [h2] at h
      injection h with h
      rw [Prod.mk.injEq] at h
      obtain ⟨h3, _⟩ := h
      subst h3
      exact List.IsSuffix.trans (hq r1 r2 b h2) (hp input r1 a h1)

theorem suffixPres_altL {α : Type} : ∀ (ps : List (Recog α)),
    (∀ p ∈ ps, SuffixPres p) → SuffixPres (altL ps)
  | [], _ => by intro input r v h; cases h
  | p :: rest, hall => by
    intro input r v h
    unfold altL at h
    cases hq : p input with
    | none =>
      rw [hq] at h
      exact suffixPres_altL rest (fun q hqm => hall q (by simp [hqm])) input r v h
    | some res =>
      rw [hq] at h
      injection h with h
      subst h
      exact hall p (by simp) input r v hq

theorem suffixPres_many0Go {α : Type} (p : Recog α) (hp : SuffixPres p) :
    ∀ (fuel : Nat) (input r : List Char) (vs : List α),
      many0Go p fuel input = some (r, vs) → r <:+ input
  | 0, input, r, vs => by
    intro h
    unfold many0Go at h
    cases hq : p input with
    | none =>
      rw [hq] at h
      injection h with h
      rw [Prod.mk.injEq] at h
      obtain ⟨h1, _⟩ := h
      subst h1
      exact List.suffix_rfl
    | some res => rw [hq] at h; cases h
  | fuel + 1, input, r, vs => by
    intro h
    unfold many0Go at h
    cases hq : p input with
    | none =>
      rw [hq] at h
      injection h with h
      rw [Prod.mk.injEq] at h
      obtain ⟨h1, _⟩ := h
      subst h1
      exact List.suffix_rfl
    | some res =>
      rw [hq] at h
      rcases res with ⟨rest, v⟩
      simp only [] at h
      split at h
      · cases hrec : many0Go p fuel rest with
        | none => rw [hrec] at h; cases h
        | some res2 =>
          rw [hrec] at h
          rcases res2 with ⟨r2, vs2⟩
          simp only [] at h
          injection h with h
          rw [Prod.mk.injEq] at h
          obtain ⟨h1, _⟩ := h
          subst h1
          exact List.IsSuffix.trans (suffixPres_many0Go p hp fuel rest r2 vs2 hrec)
            (hp input rest v (by rw [hq]))
      · cases h

theorem consuming_tagP (t : List Char) (ht : t ≠ []) : Consuming (tagP t) := by
  intro input r v h
  unfold tagP at h
  split at h
  · rename_i hpre
    injection h with h
    rw [Prod.mk.injEq] at h
    obtain ⟨h1, h2⟩ := h
    subst h1
    have hle := (List.isPrefixOf_iff_prefix.mp hpre).length_le
    have hpos : 0 < t.length := List.length_pos.mpr ht
    simp only [List.length_drop]
    omega
  · cases h

theorem consuming_altL {α : Type} : ∀ (ps : List (Recog α)),
    (∀ p ∈ ps, Consuming p) → Consuming (altL ps)
  | [], _ => by intro input r v h; cases h
  | p :: rest, hall => by
    intro input r v h
    unfold altL at h
    cases hq : p input with
    | none =>
      rw [hq] at h
      exact consuming_altL rest (fun q hqm => hall q (by simp [hqm])) input r v h
    | some res =>
      rw [hq] at h
      injection h with h
      subst h
      exact hall p (by simp) input r v hq

theorem consuming_mapP {α β : Type} (p : Recog α) (f : α → β) (hp : Consuming p) :
    Consuming (mapP p f) := by
  intro input r v h
  unfold mapP at h
  cases hq : p input with
  | none => rw [hq] at h; cases h
  | some res =>
    rw [hq] at h
    injection h with h
    rw [Prod.mk.injEq] at h
    obtain ⟨h1, _⟩ := h
    subst h1
    exact hp input res.1 res.2 (by rw [hq])

theorem consuming_pairP {α β : Type} (p : Recog α) (q : Recog β)
    (hp : Consuming p) (hq : SuffixPres q) : Consuming (pairP p q) := by
  intro input r v h
  unfold pairP at h
  cases h1 : p input with
  | none => rw [h1] at h; cases h
  | some res1 =>
    rw [h1] at h
    rcases res1 with ⟨r1, a⟩
    simp only [] at h
    cases h2 : q r1 with
    | none => rw [h2] at h; cases h
    | some res2 =>
      rcases res2 with ⟨r2, b⟩
      rw [h2] at h
      injection h with h
      rw [Prod.mk.injEq] at h
      obtain ⟨h3, _⟩ := h
      subst h3
      have hle := (hq r1 r2 b h2).length_le
      have hlt := hp input r1 a h1
      omega

theorem consuming_signRun : Consuming signRun := by
  unfold signRun
  apply consuming_mapP
  apply consuming_pairP
  · apply consuming_altL
    intro p hpm
    simp only [List.mem_cons, List.not_mem_nil, or_false] at hpm
    rcases hpm with h | h <;> subst h <;> exact consuming_tagP _ (by decide)
  · exact suffixPres_optP _ (suffixPres_mapResP _ _ (suffixPres_takeWhileMN _ _ _))

theorem suffixPres_signRun : SuffixPres signRun := by
  unfold signRun
  apply suffixPres_mapP
  apply suffixPres_pairP
  · apply suffixPres_altL
    intro p hpm
    simp only [List.mem_cons, List.not_mem_nil, or_false] at hpm
    rcases hpm with h | h <;> subst h <;> exact suffixPres_tagP _
  · exact suffixPres_optP _ (suffixPres_mapResP _ _ (suffixPres_takeWhileMN _ _ _))

theorem many0Go_total {α : Type} (p : Recog α) (hc : Consuming p) :
    ∀ (fuel : Nat) (input : List Char), input.length ≤ fuel →
      ∃ r vs, many0Go p fuel input = some (r, vs) := by
  intro fuel
  induction fuel with
  | zero =>
    intro input hlen
    have : input = [] := List.length_eq_zero.mp (by omega)
    subst this
    cases hq : p [] with
    | none => exact ⟨[], [], by unfold many0Go; rw [hq]⟩
    | some res =>
      have := hc [] res.1 res.2 (by rw [hq])
      simp at this
  | succ fuel ih =>
    intro input hlen
    cases hq : p input with
    | none => exact ⟨input, [], by unfold many0Go; rw [hq]⟩
    | some res =>
      rcases res with ⟨rest, v⟩
      have hlt := hc input rest v (by rw [hq])
      obtain ⟨r, vs, hrec⟩ := ih rest (by omega)
      refine ⟨r, v :: vs, ?_⟩
      unfold many0Go
      rw [hq]
      simp only [if_pos hlt]
      rw [hrec]

theorem mapP_some {α β : Type} (p : Recog α) (f : α → β) (input r : List Char) (v : α)
    (h : p input = some (r, v)) : mapP p f input = some (r, f v) := by
  unfold mapP
  rw [h]
  rfl

theorem mapP_none {α β : Type} (p : Recog α) (f : α → β) (input : List Char)
    (h : p input = none) : mapP p f input = none := by
  unfold mapP
  rw [h]
  rfl

theorem pairP_none_left {α β : Type} (p : Recog α) (q : Recog β) (input : List Char)
    (h : p input = none) : pairP p q input = none := by
  unfold pairP
  rw [h]

theorem optP_none {α : Type} (p : Recog α) (input : List Char)
    (h : p input = none) : optP p input = some (input, none) := by
  unfold optP
  rw [h]

theorem optP_total {α : Type} (p : Recog α) (input : List Char) :
    ∃ r v, optP p input = some (r, v) := by
  unfold optP
  cases hq : p input with
  | none => exact ⟨input, none, rfl⟩
  | some res =>
    rcases res with ⟨r0, v0⟩
    exact ⟨r0, some v0, rfl⟩

theorem signRun_none_of_no_sign (input : List Char)
    (h1 : input.head? ≠ some '+') (h2 : input.head? ≠ some '-') :
    signRun input = none := by
  cases input with
  | nil => rfl
  | cons c rest =>
    simp only [List.head?, ne_eq, Option.some.injEq] at h1 h2
    have hc1 : ('+' == c) = false := by
      rw [beq_eq_false_iff_ne]
      exact fun e => h1 e.symm
    have hc2 : ('-' == c) = false := by
      rw [beq_eq_false_iff_ne]
      exact fun e => h2 e.symm
    have t1 : tagP (("+").toList) (c :: rest) = none := by
      unfold tagP
      rw [if_neg]
      show ¬ List.isPrefixOf ['+'] (c :: rest) = true
      simp [List.isPrefixOf, hc1]
    have t2 : tagP (("-").toList) (c :: rest) = none := by
      unfold tagP
      rw [if_neg]
      show ¬ List.isPrefixOf ['-'] (c :: rest) = true
      simp [List.isPrefixOf, hc2]
    unfold signRun mapP pairP altL altL
    rw [t1, t2]
    rfl

/-- C10: the `charge` and `hcount` recognizers are total — on every input
(the empty one included) each succeeds, returning a suffix of the input
(only the matched prefix is consumed, the rest untouched) — and each
returns 0, consuming nothing, when the input starts with no sign run
respectively no `H`.  (`i8` addition is modelled with wrap-around; the
spec leaves charge overflow undefined.) -/
theorem c10_charge_hcount_total (input : List Char) :
    (∃ v r, charge input = some (r, v) ∧ r <:+ input) ∧
    (∃ n r, hcount input = some (r, n) ∧ r <:+ input) ∧
    (input.head? ≠ some '+' → input.head? ≠ some '-' → charge input = some (input, 0)) ∧
    (input.head? ≠ some 'H' → hcount input = some (input, 0)) := by
  refine ⟨?_, ?_, ?_, ?_⟩
  · obtain ⟨r, vs, h⟩ := many0Go_total signRun consuming_signRun input.length input (le_refl _)
    refine ⟨vs.foldl (fun acc x => i8wrap (acc + x)) 0, r, ?_, ?_⟩
    · exact mapP_some (many0P signRun) _ input r vs h
    · exact suffixPres_many0Go signRun suffixPres_signRun input.length input r vs h
  · obtain ⟨r, v, hx⟩ :=
      optP_total (mapP (pairP (tagP (("H").toList)) (optP digit1)) (fun r => r.2.getD 1)) input
    refine ⟨v.getD 0, r, ?_, ?_⟩
    · exact mapP_some _ _ input r v hx
    · refine suffixPres_optP _ ?_ input r v hx
      exact suffixPres_mapP _ _ (suffixPres_pairP _ _ (suffixPres_tagP _)
        (suffixPres_optP _ (suffixPres_mapResP _ _ (suffixPres_takeWhileMN _ _ _))))
  · intro h1 h2
    have hs := signRun_none_of_no_sign input h1 h2
    cases input with
    | nil => rfl
    | cons c rest =>
      have hmany : many0P signRun (c :: rest) = some ((c :: rest), ([] : List Int)) := by
        show many0Go signRun (c :: rest).length (c :: rest) = _
        simp only [List.length_cons]
        unfold many0Go
        rw [hs]
      exact mapP_some (many0P signRun) _ (c :: rest) (c :: rest) [] hmany
  · intro h1
    cases input with
    | nil => rfl
    | cons c rest =>
      simp only [List.head?, ne_eq, Option.some.injEq] at h1
      have hc1 : ('H' == c) = false := by
        rw [beq_eq_false_iff_ne]
        exact fun e => h1 e.symm
      have t1 : tagP (("H").toList) (c :: rest) = none := by
        unfold tagP
        rw [if_neg]
        show ¬ List.isPrefixOf ['H'] (c :: rest) = true
        simp [List.isPrefixOf, hc1]
      have hX : mapP (pairP (tagP (("H").toList)) (optP digit1)) (fun r => r.2.getD 1)
          (c :: rest) = none :=
        mapP_none _ _ _ (pairP_none_left _ _ _ t1)
      exact mapP_some _ _ (c :: rest) (c :: rest) none (optP_none _ _ hX)

/-- Witness for C10: `charge` on `xy` and `hcount` on the empty input both
return 0 and consume nothing. -/
theorem c10_charge_hcount_total_witness :
    charge (("xy").toList) = some ((("xy").toList), 0) ∧
    hcount [] = some ([], 0) :=
  ⟨(c10_charge_hcount_total (("xy").toList)).2.2.1 (by decide) (by decide),
   (c10_charge_hcount_total []).2.2.2 (by decide)⟩

end Smiles
